import Mathlib

/-!
Verification of the product-photo analysis pipeline (image gatekeeper,
size compressor, batch classifier, record normalizer).

The Python sources are shallowly embedded: Python `str` values are Lean
`String`s manipulated through explicit character-list operations
(`pyStrip` models `str.strip()`, `pyLower` models ASCII `str.lower()`,
`replaceAll` models `str.replace`), dicts with the fixed product schema
become total/partial functions out of the `Field` enumeration, and the
external Gemini model is abstracted as a per-batch outcome oracle.
Floating-point sizes and completeness scores are modelled over `ℚ`.
-/

namespace PhotoPipeline

/-! ## Character-level helpers (Python `str` primitives) -/

/-- Whitespace characters removed by Python `str.strip()` (ASCII subset:
space, tab, newline, carriage return, vertical tab, form feed). -/
def wsC (c : Char) : Bool :=
  c.toNat = 32 || c.toNat = 9 || c.toNat = 10 || c.toNat = 13 || c.toNat = 11 || c.toNat = 12

/-- ASCII decimal digit, modelling the regex class `\d`. -/
def digitC (c : Char) : Bool :=
  48 ≤ c.toNat && c.toNat ≤ 57

/-- ASCII lower-casing of one character, modelling `str.lower()` on the
ASCII range. -/
def lowChar (c : Char) : Char :=
  if 65 ≤ c.toNat ∧ c.toNat ≤ 90 then Char.ofNat (c.toNat + 32) else c

/-- Lower-case every character, modelling `str.lower()`. -/
def pyLower (l : List Char) : List Char :=
  l.map lowChar

/-- Remove leading whitespace. -/
def lstrip (l : List Char) : List Char :=
  l.dropWhile wsC

/-- Remove trailing whitespace. -/
def rstrip (l : List Char) : List Char :=
  (l.reverse.dropWhile wsC).reverse

/-- Remove leading and trailing whitespace, modelling `str.strip()`. -/
def pyStrip (l : List Char) : List Char :=
  rstrip (lstrip l)

/-- Fuel-driven worker for `replaceAll`: replaces non-overlapping
occurrences of `old` by `new` left to right, like Python `str.replace`. -/
def replaceAllGo (old new : List Char) : ℕ → List Char → List Char
  | 0, l => l
  | _ + 1, [] => []
  | fuel + 1, c :: rest =>
    if old ≠ [] ∧ old.isPrefixOf (c :: rest) then
      new ++ replaceAllGo old new fuel (rest.drop (old.length - 1))
    else
      c :: replaceAllGo old new fuel rest

/-- Python `s.replace(old, new)` on character lists. -/
def replaceAll (old new s : List Char) : List Char :=
  replaceAllGo old new s.length s

/-- `str.strip()` on `String`. -/
def stripS (s : String) : String :=
  String.mk (pyStrip s.toList)

/-- `str.lower()` on `String`. -/
def lowerS (s : String) : String :=
  String.mk (pyLower s.toList)

/-! ## Data model

`PRODUCT_SCHEMA` in `config/settings.py` fixes seven record fields. -/

/-- The seven keys of `PRODUCT_SCHEMA`. -/
inductive Field
  | nom_produit
  | description_type
  | volume
  | prix_fcfa
  | code_barres_ean
  | code_article
  | source_information
deriving DecidableEq, Repr

/-- `PRODUCT_SCHEMA.keys()` in declaration order. -/
def schemaFields : List Field :=
  [Field.nom_produit, Field.description_type, Field.volume, Field.prix_fcfa,
   Field.code_barres_ean, Field.code_article, Field.source_information]

/-- A Python value stored in a result dict: a string, `None`, or some
other (non-string) JSON value with decidable identity and an explicit
truthiness bit. -/
inductive PyVal
  | vstr (s : String)
  | vnone
  | vother (id : ℕ) (truthy : Bool)
deriving DecidableEq, Repr

/-- Python truthiness of a stored value. -/
def PyVal.isTruthy : PyVal → Bool
  | .vstr s => !s.isEmpty
  | .vnone => false
  | .vother _ t => t

/-- The sentinel for fields the model did not find. -/
def nonDetecte : String := "Non détecté"

/-- The distinct sentinel for fields lost to a processing error. -/
def erreurAnalyse : String := "Erreur d\u0027analyse"

/-- A raw analysis-result dict: every schema field is present or absent,
plus the three metadata keys `nom_fichier`, `chemin_fichier`, `erreur`
(absent metadata keys are `none`). -/
structure RawRecord where
  fields : Field → Option PyVal
  nom_fichier : Option String
  chemin_fichier : Option String
  erreur : Option String

/-- A dict produced by `DataProcessor._clean_result`: all seven schema
fields are present. -/
structure CleanedRecord where
  fields : Field → PyVal
  nom_fichier : Option String
  chemin_fichier : Option String
  erreur : Option String

/-- Forget that a cleaned record is total, so it can be fed back into
the cleaner. -/
def CleanedRecord.toRaw (c : CleanedRecord) : RawRecord :=
  { fields := fun f => some (c.fields f)
    nom_fichier := c.nom_fichier
    chemin_fichier := c.chemin_fichier
    erreur := c.erreur }

/-! ## `DataProcessor` (src/data_processor.py) -/

/-- The special markers replaced by the sentinel in `_clean_result`. -/
def specialVals : List String :=
  ["", "n/a", "na", "null", "none", "?", "-"]

/-- Characters kept by the regex `[^\d.,]` substitution of
`_clean_price`. -/
def priceChar (ch : Char) : Bool :=
  digitC ch || ch == '.' || ch == ','

/-- `DataProcessor._clean_price`. -/
def cleanPrice (s : String) : String :=
  if s = nonDetecte then s
  else
    if String.mk (s.toList.filter priceChar) = "" then nonDetecte
    else String.mk (s.toList.filter priceChar)

/-- The `replacements` table of `_clean_volume`, in insertion order. -/
def volumeReplacements : List (String × String) :=
  [("litres", "L"), ("litre", "L"), ("millilitres", "mL"), ("millilitre", "mL"),
   ("grammes", "g"), ("gramme", "g"), ("kilogrammes", "kg"), ("kilogramme", "kg")]

/-- `DataProcessor._clean_volume`: lower-case, apply the substitution
table sequentially, trim. -/
def cleanVolume (s : String) : String :=
  if s = nonDetecte then s
  else
    String.mk (pyStrip (volumeReplacements.foldl
      (fun acc p => replaceAll p.1.toList p.2.toList acc) (pyLower s.toList)))

/-- `DataProcessor._clean_barcode`. -/
def cleanBarcode (s : String) : String :=
  if s = nonDetecte then s
  else
    if String.mk (s.toList.filter digitC) = "" then nonDetecte
    else String.mk (s.toList.filter digitC)

/-- The per-field body of the loop in `DataProcessor._clean_result`:
strip, replace special markers by the sentinel, then dispatch on the
field. -/
def cleanFieldVal (f : Field) (v : PyVal) : PyVal :=
  match v with
  | .vstr s0 =>
    if lowerS (stripS s0) ∈ specialVals then .vstr nonDetecte
    else if f = Field.prix_fcfa then .vstr (cleanPrice (stripS s0))
    else if f = Field.volume then .vstr (cleanVolume (stripS s0))
    else if f = Field.code_barres_ean then .vstr (cleanBarcode (stripS s0))
    else .vstr (stripS s0)
  | v => v

/-- `DataProcessor._clean_result`: clean each schema field (missing keys
default to the sentinel) and keep the metadata keys. -/
def cleanResult (r : RawRecord) : CleanedRecord :=
  { fields := fun f => cleanFieldVal f ((r.fields f).getD (.vstr nonDetecte))
    nom_fichier := r.nom_fichier
    chemin_fichier := r.chemin_fichier
    erreur := r.erreur }

/-- The per-field test of `_calculate_completeness`: truthy and neither
sentinel. -/
def fieldComplete (v : PyVal) : Bool :=
  v.isTruthy && !(v == PyVal.vstr nonDetecte) && !(v == PyVal.vstr erreurAnalyse)

/-- `DataProcessor._calculate_completeness`: percentage of complete
schema fields. -/
def completeness (c : CleanedRecord) : ℚ :=
  ((schemaFields.countP fun f => fieldComplete (c.fields f) : ℕ) : ℚ)
    / ((schemaFields.length : ℕ) : ℚ) * 100

/-- A record as emitted by `DataProcessor.process_results`. -/
structure ProcRecord where
  fields : Field → PyVal
  nom_fichier : Option String
  chemin_fichier : Option String
  erreur : Option String
  numero_sequence : ℕ
  date_traitement : String
  score_completude : ℚ
  statut : String

/-- One iteration of the loop in `process_results`: clean, add metadata,
score, classify. `now` stands for `datetime.now().strftime(...)`. -/
def processOne (now : String) (seq : ℕ) (r : RawRecord) : ProcRecord :=
  let c := cleanResult r
  let score := completeness c
  { fields := c.fields
    nom_fichier := c.nom_fichier
    chemin_fichier := c.chemin_fichier
    erreur := c.erreur
    numero_sequence := seq
    date_traitement := now
    score_completude := score
    statut :=
      if c.erreur.isSome then ("Erreur")
      else if 80 ≤ score then ("Complet")
      else ("Partiel") }

/-- The loop of `process_results`, with `enumerate(raw_results, 1)`
counter `i`. -/
def processResultsFrom (now : String) : ℕ → List RawRecord → List ProcRecord
  | _, [] => []
  | i, r :: rs => processOne now i r :: processResultsFrom now (i + 1) rs

/-- `DataProcessor.process_results`. -/
def processResults (now : String) (rs : List RawRecord) : List ProcRecord :=
  processResultsFrom now 1 rs

/-! ## `GeminiClient` (src/gemini_client.py)

The external model call is abstracted: a `BatchOutcome` says, for one
batch, whether `_parse_gemini_response` obtained a `produits` array
(`ok`), hit a `json.JSONDecodeError` (`jsonError`), or the batch failed
with some other exception — including `_analyze_batch` exhausting its
retries (`failure msg`, `msg` standing for `str(e)`). -/

/-- An input image: `Path.name` and `str(Path)`. -/
structure Img where
  name : String
  path : String
deriving DecidableEq, Repr

/-- The effect of `_validate_product_data` on one schema field: missing
or `None` becomes the sentinel, strings are stripped. -/
def validateVal : Option PyVal → PyVal
  | none => .vstr nonDetecte
  | some .vnone => .vstr nonDetecte
  | some (.vstr s) => .vstr (stripS s)
  | some v => v

/-- One iteration of the product loop in `_parse_gemini_response`:
attach `nom_fichier`/`chemin_fichier` for position `i` (synthetic name
when the model over-returned) and validate. The metadata strings also
pass through the strip loop of `_validate_product_data`. -/
def annotateOne (imgs : List Img) (i : ℕ) (p : RawRecord) : RawRecord :=
  let nom := match imgs[i]? with
    | some img => img.name
    | none => ("image_inconnue_") ++ toString (i + 1)
  let chemin := match imgs[i]? with
    | some img => img.path
    | none => ("")
  { fields := fun f => some (validateVal (p.fields f))
    nom_fichier := some (stripS nom)
    chemin_fichier := some (stripS chemin)
    erreur := p.erreur.map stripS }

/-- The product loop of `_parse_gemini_response`, positions starting
at `i`. -/
def annotateProducts (imgs : List Img) : ℕ → List RawRecord → List RawRecord
  | _, [] => []
  | i, p :: ps => annotateOne imgs i p :: annotateProducts imgs (i + 1) ps

/-- `GeminiClient._create_empty_result`: every schema field is the
sentinel except `source_information`, overwritten to `Non analysé`. -/
def createEmptyResult (img : Img) : RawRecord :=
  { fields := fun f =>
      if f = Field.source_information then some (.vstr ("Non analysé"))
      else some (.vstr nonDetecte)
    nom_fichier := some img.name
    chemin_fichier := some img.path
    erreur := none }

/-- `GeminiClient._create_error_result`: every schema field is the
error sentinel except `source_information`, overwritten to
`Erreur: {msg}`; the `erreur` metadata key is set. -/
def createErrorResult (img : Img) (msg : String) : RawRecord :=
  { fields := fun f =>
      if f = Field.source_information then some (.vstr ("Erreur: " ++ msg))
      else some (.vstr erreurAnalyse)
    nom_fichier := some img.name
    chemin_fichier := some img.path
    erreur := some msg }

/-- The success path of `_parse_gemini_response`: annotate each product
by position, then pad the tail with empty results until one record per
image exists. -/
def parseOkResults (imgs : List Img) (products : List RawRecord) : List RawRecord :=
  let results := annotateProducts imgs 0 products
  results ++ (imgs.drop results.length).map createEmptyResult

/-- The outcome of one batch call, abstracting the model response. -/
inductive BatchOutcome
  | ok (products : List RawRecord)
  | jsonError
  | failure (msg : String)

/-- The records one batch contributes to `all_results`: a parsed
response goes through `_parse_gemini_response`; a JSON error or a batch
failure yields one error result per image of the batch. -/
def batchResults (o : BatchOutcome) (batch : List Img) : List RawRecord :=
  match o with
  | .ok ps => parseOkResults batch ps
  | .jsonError => batch.map fun img => createErrorResult img ("Erreur de parsing JSON")
  | .failure msg => batch.map fun img => createErrorResult img msg

/-- Fuel-driven batching worker (`image_paths[i:i + batch_size]`). -/
def chunksOfGo (bs : ℕ) : ℕ → List Img → List (List Img)
  | 0, _ => []
  | _ + 1, [] => []
  | fuel + 1, x :: xs => (x :: xs.take (bs - 1)) :: chunksOfGo bs fuel (xs.drop (bs - 1))

/-- Partition the image list into consecutive batches of `bs` (the last
batch may be shorter), as the loop of `analyze_images` does. -/
def chunksOf (bs : ℕ) (l : List Img) : List (List Img) :=
  chunksOfGo bs l.length l

/-- The batch loop of `analyze_images`, batch index `k` selecting the
oracle outcome. -/
def analyzeBatchesFrom (oracle : ℕ → BatchOutcome) : ℕ → List (List Img) → List RawRecord
  | _, [] => []
  | k, b :: rest => batchResults (oracle k) b ++ analyzeBatchesFrom oracle (k + 1) rest

/-- `GeminiClient.analyze_images`: batch, call, collect. -/
def analyzeImages (bs : ℕ) (oracle : ℕ → BatchOutcome) (imgs : List Img) : List RawRecord :=
  analyzeBatchesFrom oracle 0 (chunksOf bs imgs)

/-! ## `FileManager` and `ImageProcessor` (src/file_manager.py,
src/image_processor.py)

The file system is a partial map from path to file bytes. -/

/-- File contents by path (`none` when the path does not exist). -/
def FileSys : Type :=
  String → Option (List ℕ)

/-- `FileManager.get_file_size_mb`: `0.0` for a missing path, else size
in MB. -/
def getFileSizeMB (fs : FileSys) (p : String) : ℚ :=
  match fs p with
  | none => 0
  | some bytes => ((bytes.length : ℕ) : ℚ) / (1024 * 1024)

/-- Which branch `_process_single_image` takes: plain copy of the given
content, or the compression path. -/
inductive ProcAction
  | copied (content : Option (List ℕ))
  | needsCompression
deriving DecidableEq, Repr

/-- The size gate of `ImageProcessor._process_single_image`: at or
under `MAX_IMAGE_SIZE_MB` means `shutil.copy2` (output bytes are the
input bytes), otherwise `_compress_image` runs. -/
def processSingleImage (fs : FileSys) (maxMB : ℚ) (p : String) : ProcAction :=
  if getFileSizeMB fs p ≤ maxMB then .copied (fs p) else .needsCompression

/-- The quality update of `_compress_image`:
`quality = max(20, quality - 15)`. -/
def nextQuality (q : ℕ) : ℕ :=
  max 20 (q - 15)

/-- The quality used by the i-th save of the compression loop when it
starts at `q0`. -/
def qualitySchedule (q0 : ℕ) : ℕ → ℕ
  | 0 => q0
  | i + 1 => nextQuality (qualitySchedule q0 i)

/-- Observable trace of the compression loop: the qualities at which
`img.save` ran, in order, and whether the impossible-to-reduce warning
fired. -/
structure CompressTrace where
  tried : List ℕ
  warned : Bool
deriving DecidableEq, Repr

/-- The `for attempt in range(5)` loop of `_compress_image`, with
`rem` save attempts left: save at `quality`, stop if the size fits,
otherwise lower the quality; on the final attempt warn instead.
`sizeOf q` is the encoded size in MB at quality `q`. -/
def compressGo (sizeOf : ℕ → ℚ) (maxMB : ℚ) : ℕ → ℕ → CompressTrace
  | _, 0 => ⟨[], false⟩
  | q, rem + 1 =>
    if sizeOf q ≤ maxMB then ⟨[q], false⟩
    else if rem = 0 then ⟨[q], true⟩
    else
      let t := compressGo sizeOf maxMB (nextQuality q) rem
      ⟨q :: t.tried, t.warned⟩

/-- `ImageProcessor._compress_image`: the quality loop with 5 attempts,
starting at the configured quality `q0`. -/
def compressImage (sizeOf : ℕ → ℚ) (maxMB : ℚ) (q0 : ℕ) : CompressTrace :=
  compressGo sizeOf maxMB q0 5

/-- One directory entry, as seen by `Path.iterdir()`. -/
structure DirEntry where
  name : String
  isFile : Bool
deriving DecidableEq, Repr

/-- Index of the last `.` in a name (`str.rfind`), `none` if absent. -/
def rfindDotIdx : List Char → Option ℕ
  | [] => none
  | c :: rest =>
    match rfindDotIdx rest with
    | some i => some (i + 1)
    | none => if c = '.' then some 0 else none

/-- `pathlib.PurePath.suffix`: the part from the last dot, provided
that dot is neither the first nor the last character. -/
def pathSuffix (name : List Char) : List Char :=
  match rfindDotIdx name with
  | none => []
  | some i => if 0 < i ∧ i < name.length - 1 then name.drop i else []

/-- `SUPPORTED_IMAGE_FORMATS` from `config/settings.py`. -/
def supportedImageFormats : List (List Char) :=
  [".jpg".toList, ".jpeg".toList, ".png".toList, ".webp".toList,
   ".heic".toList, ".heif".toList]

/-- `FileManager._is_valid_image`: case-insensitive suffix membership. -/
def isValidImage (name : String) : Bool :=
  supportedImageFormats.contains (pyLower (pathSuffix name.toList))

/-- Strict lexicographic comparison of character lists by code point,
modelling Python `str` comparison used by `sorted`. -/
def lexLt : List Char → List Char → Bool
  | [], [] => false
  | [], _ :: _ => true
  | _ :: _, [] => false
  | a :: as, b :: bs =>
    if a.toNat < b.toNat then true
    else if b.toNat < a.toNat then false
    else lexLt as bs

/-- The matching non-strict order on `String`. -/
def strLe (a b : String) : Prop :=
  lexLt b.toList a.toList = false

/-- Insert into a lexicographically sorted list. -/
def insertSorted (s : String) : List String → List String
  | [] => [s]
  | t :: ts => if lexLt t.toList s.toList then t :: insertSorted s ts else s :: t :: ts

/-- Insertion sort, modelling `sorted(...)` on same-directory paths. -/
def sortStrings (l : List String) : List String :=
  l.foldr insertSorted []

/-- `FileManager.get_input_images`: empty for an absent directory, else
the sorted names of the valid image files. -/
def getInputImages (dir : Option (List DirEntry)) : List String :=
  match dir with
  | none => []
  | some entries =>
    sortStrings ((entries.filter fun e => e.isFile && isValidImage e.name).map (·.name))

/-! ## Concrete inputs used by witnesses and counterexamples -/

/-- A raw record whose volume field is `2 Litres`, witnessing that
volume cleaning is not idempotent. -/
def volumeRawRecord : RawRecord :=
  { fields := fun f => if f = Field.volume then some (.vstr ("2 Litres")) else none
    nom_fichier := none
    chemin_fichier := none
    erreur := none }

/-- A product dict with no keys, as the model might return. -/
def blankProduct : RawRecord :=
  { fields := fun _ => none
    nom_fichier := none
    chemin_fichier := none
    erreur := none }

/-- Three sample input images. -/
def sampleImgs : List Img :=
  [⟨"a.jpg", "in/a.jpg"⟩, ⟨"b.jpg", "in/b.jpg"⟩, ⟨"c.jpg", "in/c.jpg"⟩]

/-- A sample batch oracle: the first batch parses with a single
product, every later batch fails. -/
def sampleOracle : ℕ → BatchOutcome :=
  fun j => if j = 0 then .ok [blankProduct] else .failure ("reseau")

/-! ## Claims -/

/-- Claim C5 (code bug). The `replacements` table of `_clean_volume`
maps `millilitres`/`millilitre` to `mL`, but the table is applied
sequentially and `litres`/`litre` fire first inside the longer words,
so those two entries are dead: `500 millilitres` cleans to
`500 milliL`, not `500 mL`. The `2 Litres → 2 L` part of the claim does
hold. -/
theorem clean_volume_millilitres_bug :
    cleanVolume ("2 Litres") = "2 L" ∧
    cleanVolume ("500 millilitres") = "500 milliL" ∧
    cleanVolume ("500 millilitres") ≠ "500 mL" := by
  decide

/-- Claim C2 (counterexample). For an image of a failed batch, the
`source_information` field of its error record does not carry the
`Erreur d'analyse` sentinel: `_create_error_result` overwrites it
with `Erreur: {message}`. So not all seven schema fields carry the
sentinel, contrary to the claim. -/
theorem error_result_source_information_not_sentinel :
    ((batchResults (BatchOutcome.failure ("boom")) [⟨"a.jpg", "input/a.jpg"⟩]).map
        fun r => r.fields Field.source_information) ≠
      [some (PyVal.vstr erreurAnalyse)] := by
  decide

/-- Claim C4 (counterexample). Cleaning is not idempotent on the volume
field: `2 Litres` cleans to `2 L`, and cleaning again lower-cases the
substituted unit to `2 l`. -/
theorem clean_result_not_idempotent_on_volume :
    (cleanResult (cleanResult volumeRawRecord).toRaw).fields Field.volume ≠
      (cleanResult volumeRawRecord).fields Field.volume := by
  decide

/-- Claim C7. An image whose byte size is at or under the ceiling
(`size_bytes ≤ maxMB × 1024 × 1024`, i.e. `get_file_size_mb ≤
MAX_IMAGE_SIZE_MB`) takes the pass-through branch of
`_process_single_image`: the output is a plain copy whose bytes are the
input bytes. -/
theorem pass_through_under_ceiling (fs : FileSys) (maxMB : ℚ) (p : String) (bytes : List ℕ)
    (hp : fs p = some bytes)
    (hsize : ((bytes.length : ℕ) : ℚ) ≤ maxMB * (1024 * 1024)) :
    processSingleImage fs maxMB p = ProcAction.copied (some bytes) := by
  have hc : (0 : ℚ) < 1024 * 1024 := by norm_num
  unfold processSingleImage
  rw [if_pos]
  · rw [hp]
  · unfold getFileSizeMB
    rw [hp]
    exact (div_le_iff₀ hc).mpr hsize

/-- Claim C7 witness: a 3-byte file under a 2 MB ceiling is copied
unchanged. -/
theorem pass_through_under_ceiling_witness :
    processSingleImage (fun q => if q = "img.jpg" then some [7, 8, 9] else none) 2
        ("img.jpg") = ProcAction.copied (some [7, 8, 9]) :=
  pass_through_under_ceiling _ _ _ _ (by simp) (by norm_num)

/-- Claim C10. `get_file_size_mb` returns `0.0` for a path that does
not exist instead of raising, so the size gate of
`_process_single_image` sees `0 ≤ MAX_IMAGE_SIZE_MB` and takes the
pass-through copy branch for a missing image file. -/
theorem missing_file_treated_as_small (fs : FileSys) (p : String) (maxMB : ℚ)
    (hp : fs p = none) (hmax : 0 ≤ maxMB) :
    getFileSizeMB fs p = 0 ∧ processSingleImage fs maxMB p = ProcAction.copied none := by
  have h0 : getFileSizeMB fs p = 0 := by
    unfold getFileSizeMB
    rw [hp]
  refine ⟨h0, ?_⟩
  unfold processSingleImage
  rw [if_pos]
  · rw [hp]
  · rw [h0]
    exact hmax

/-- Claim C10 witness: on an empty file system, a ghost path has size 0
and is "copied". -/
theorem missing_file_treated_as_small_witness :
    getFileSizeMB (fun _ => none) ("ghost.jpg") = 0 ∧
      processSingleImage (fun _ => none) (9 / 5) ("ghost.jpg") = ProcAction.copied none :=
  missing_file_treated_as_small _ _ _ rfl (by norm_num)

/-- Deeper steps of the quality schedule: starting one step later
shifts the index. -/
theorem qualitySchedule_shift (q : ℕ) : ∀ i, qualitySchedule (nextQuality q) i = qualitySchedule q (i + 1)
  | 0 => rfl
  | i + 1 => by
    show nextQuality (qualitySchedule (nextQuality q) i) = qualitySchedule q (i + 2)
    rw [qualitySchedule_shift q i]
    rfl

/-- Every scheduled quality stays at or above the floor of 20 when the
start does. -/
theorem qualitySchedule_floor (q0 : ℕ) (h : 20 ≤ q0) : ∀ i, 20 ≤ qualitySchedule q0 i
  | 0 => h
  | _ + 1 => le_max_left _ _

/-- Behavior of the compression loop with `rem ≥ 1` attempts left:
bounded attempt count, tried qualities follow the schedule, all tried
qualities but the last exceeded the ceiling, the warning implies the
attempts were exhausted, and the last tried quality fits exactly when
the warning did not fire. -/
theorem compressGo_spec (sizeOf : ℕ → ℚ) (maxMB : ℚ) :
    ∀ rem q, 1 ≤ rem →
      (1 ≤ (compressGo sizeOf maxMB q rem).tried.length ∧
        (compressGo sizeOf maxMB q rem).tried.length ≤ rem) ∧
      (∀ i (hi : i < (compressGo sizeOf maxMB q rem).tried.length),
        (compressGo sizeOf maxMB q rem).tried[i] = qualitySchedule q i) ∧
      (∀ i, i + 1 < (compressGo sizeOf maxMB q rem).tried.length →
        maxMB < sizeOf (qualitySchedule q i)) ∧
      ((compressGo sizeOf maxMB q rem).warned = true →
        (compressGo sizeOf maxMB q rem).tried.length = rem) ∧
      (∃ last, (compressGo sizeOf maxMB q rem).tried.getLast? = some last ∧
        ((compressGo sizeOf maxMB q rem).warned = false → sizeOf last ≤ maxMB) ∧
        ((compressGo sizeOf maxMB q rem).warned = true → maxMB < sizeOf last)) := by
  intro rem
  induction rem with
  | zero => omega
  | succ r ih =>
    intro q _
    by_cases hfit : sizeOf q ≤ maxMB
    · simp only [compressGo, if_pos hfit]
      refine ⟨⟨Nat.le_refl 1, Nat.succ_le_succ (Nat.zero_le r)⟩, ?_, ?_,
        fun hw => Bool.noConfusion hw,
        ⟨q, rfl, fun _ => hfit, fun hw => Bool.noConfusion hw⟩⟩
      · intro i hi
        have hi1 : i < 1 := hi
        have hz : i = 0 := by omega
        subst hz
        rfl
      · intro i hi
        have hi1 : i + 1 < 1 := hi
        omega
    · by_cases hr : r = 0
      · subst hr
        simp only [compressGo, if_neg hfit, if_pos rfl]
        refine ⟨⟨Nat.le_refl 1, Nat.le_refl 1⟩, ?_, ?_, fun _ => rfl,
          ⟨q, rfl, fun hw => Bool.noConfusion hw, fun _ => lt_of_not_le hfit⟩⟩
        · intro i hi
          have hi1 : i < 1 := hi
          have hz : i = 0 := by omega
          subst hz
          rfl
        · intro i hi
          have hi1 : i + 1 < 1 := hi
          omega
      · have hr1 : 1 ≤ r := Nat.one_le_iff_ne_zero.mpr hr
        obtain ⟨⟨hlen1, hlen2⟩, hget, hstop, hwlen, last, hlast, hlfit, hlwarn⟩ :=
          ih (nextQuality q) hr1
        have hdef : compressGo sizeOf maxMB q (r + 1) =
            ⟨q :: (compressGo sizeOf maxMB (nextQuality q) r).tried,
              (compressGo sizeOf maxMB (nextQuality q) r).warned⟩ := by
          simp only [compressGo, if_neg hfit, if_neg hr]
        rw [hdef]
        refine ⟨⟨by simp only [List.length_cons]; omega,
          by simp only [List.length_cons]; omega⟩, ?_, ?_,
          by simp only [List.length_cons]; intro hw; rw [hwlen hw], ?_⟩
        · intro i hi
          match i with
          | 0 => rfl
          | i + 1 =>
            simp only [List.length_cons] at hi
            have := hget i (by omega)
            simp only [List.getElem_cons_succ]
            rw [this, qualitySchedule_shift]
        · intro i hi
          simp only [List.length_cons] at hi
          match i with
          | 0 => exact lt_of_not_le hfit
          | i + 1 =>
            rw [← qualitySchedule_shift]
            exact hstop i (by omega)
        · obtain ⟨a, l', hcons⟩ := List.exists_cons_of_ne_nil
            (List.ne_nil_of_length_pos (by omega) :
              (compressGo sizeOf maxMB (nextQuality q) r).tried ≠ [])
          refine ⟨last, ?_, hlfit, hlwarn⟩
          rw [hcons]
          rw [List.getLast?_cons_cons]
          rw [← hcons]
          exact hlast

/-- Claim C6. For an over-ceiling image, the compression loop makes at
most 5 (and at least 1) save attempts; the i-th attempt uses quality
`qualitySchedule q0 i` (start at the configured quality, step down by
15, floored at 20, so never below 20 when the configured quality is at
least 20); every attempt before the last was still over the ceiling
(early stop as soon as one fits); the warning fires exactly when all 5
scheduled qualities stay over the ceiling, in which case the last
encoded result is still emitted (the trace ends with a tried quality)
instead of failing the run. -/
theorem compress_loop_quality_schedule (sizeOf : ℕ → ℚ) (maxMB : ℚ) (q0 : ℕ)
    (h20 : 20 ≤ q0) :
    (1 ≤ (compressImage sizeOf maxMB q0).tried.length ∧
      (compressImage sizeOf maxMB q0).tried.length ≤ 5) ∧
    (∀ i (hi : i < (compressImage sizeOf maxMB q0).tried.length),
      (compressImage sizeOf maxMB q0).tried[i] = qualitySchedule q0 i) ∧
    (∀ q ∈ (compressImage sizeOf maxMB q0).tried, 20 ≤ q) ∧
    (∀ i, i + 1 < (compressImage sizeOf maxMB q0).tried.length →
      maxMB < sizeOf (qualitySchedule q0 i)) ∧
    ((compressImage sizeOf maxMB q0).warned = true ↔
      ∀ i < 5, maxMB < sizeOf (qualitySchedule q0 i)) ∧
    (∃ last, (compressImage sizeOf maxMB q0).tried.getLast? = some last ∧
      ((compressImage sizeOf maxMB q0).warned = false → sizeOf last ≤ maxMB) ∧
      ((compressImage sizeOf maxMB q0).warned = true → maxMB < sizeOf last)) := by
  unfold compressImage
  obtain ⟨⟨hlen1, hlen2⟩, hget, hstop, hwlen, last, hlast, hlfit, hlwarn⟩ :=
    compressGo_spec sizeOf maxMB 5 q0 (by omega)
  have hlast_sched : last =
      qualitySchedule q0 ((compressGo sizeOf maxMB q0 5).tried.length - 1) := by
    have hlt : (compressGo sizeOf maxMB q0 5).tried.length - 1 <
        (compressGo sizeOf maxMB q0 5).tried.length := by omega
    have h1 := List.getLast?_eq_getElem? (compressGo sizeOf maxMB q0 5).tried
    have h2 := List.getElem?_eq_getElem hlt
    have h4 := hlast
    rw [h1, h2] at h4
    have h3 := hget ((compressGo sizeOf maxMB q0 5).tried.length - 1) hlt
    rw [h3] at h4
    exact (Option.some_injective _ h4).symm
  refine ⟨⟨hlen1, hlen2⟩, hget, ?_, hstop, ⟨?_, ?_⟩, last, hlast, hlfit, hlwarn⟩
  · intro q hq
    obtain ⟨i, hi, heq⟩ := List.mem_iff_getElem.mp hq
    rw [hget i hi] at heq
    rw [← heq]
    exact qualitySchedule_floor q0 h20 i
  · intro hw i hi
    have hlen5 := hwlen hw
    rcases Nat.lt_or_ge i 4 with h4 | h4
    · exact hstop i (by omega)
    · have hi4 : i = 4 := by omega
      subst hi4
      have h5 := hlwarn hw
      rw [hlast_sched, hlen5] at h5
      exact h5
  · intro hall
    by_contra hw
    have hw' : (compressGo sizeOf maxMB q0 5).warned = false := by
      cases h : (compressGo sizeOf maxMB q0 5).warned
      · rfl
      · exact absurd h hw
    have hfit := hlfit hw'
    rw [hlast_sched] at hfit
    exact absurd hfit (not_le.mpr (hall _ (by omega)))

/-- Claim C6 witness: an image that never fits under a 2 MB ceiling at
any quality exhausts the schedule 85, 70, 55, 40, 25 and warns. -/
theorem compress_loop_quality_schedule_witness :
    (1 ≤ (compressImage (fun _ => 3) 2 85).tried.length ∧
      (compressImage (fun _ => 3) 2 85).tried.length ≤ 5) ∧
    (∀ i (hi : i < (compressImage (fun _ => 3) 2 85).tried.length),
      (compressImage (fun _ => 3) 2 85).tried[i] = qualitySchedule 85 i) ∧
    (∀ q ∈ (compressImage (fun _ => 3) 2 85).tried, 20 ≤ q) ∧
    (∀ i, i + 1 < (compressImage (fun _ => 3) 2 85).tried.length →
      (2 : ℚ) < (fun _ => (3 : ℚ)) i) ∧
    ((compressImage (fun _ => 3) 2 85).warned = true ↔
      ∀ i < 5, (2 : ℚ) < (fun _ => (3 : ℚ)) (qualitySchedule 85 i)) ∧
    (∃ last, (compressImage (fun _ => 3) 2 85).tried.getLast? = some last ∧
      ((compressImage (fun _ => 3) 2 85).warned = false → (3 : ℚ) ≤ 2) ∧
      ((compressImage (fun _ => 3) 2 85).warned = true → (2 : ℚ) < 3)) := by
  have h := compress_loop_quality_schedule (fun _ => 3) 2 85 (by omega)
  exact h

/-! ## String lemmas for the idempotence analysis -/

/-- The head of a `dropWhile` result fails the predicate. -/
theorem dropWhile_head_false (p : Char → Bool) :
    ∀ l a t, List.dropWhile p l = a :: t → p a = false := by
  intro l
  induction l with
  | nil =>
    intro a t h
    exact absurd h (by simp)
  | cons c cs ih =>
    intro a t h
    rw [List.dropWhile_cons] at h
    by_cases hp : p c
    · rw [if_pos hp] at h
      exact ih a t h
    · rw [if_neg hp] at h
      have hc : c = a := by
        have h2 := congrArg List.head? h
        simpa using h2
      subst hc
      exact Bool.eq_false_iff.mpr hp

/-- `dropWhile` leaves a list whose head already fails the predicate
unchanged. -/
theorem dropWhile_eq_self_of_head (p : Char → Bool) (l : List Char)
    (h : ∀ a t, l = a :: t → p a = false) : List.dropWhile p l = l := by
  cases l with
  | nil => rfl
  | cons c cs =>
    rw [List.dropWhile_cons, if_neg]
    rw [h c cs rfl]
    simp

/-- `dropWhile` is idempotent. -/
theorem dropWhile_idem (p : Char → Bool) (l : List Char) :
    List.dropWhile p (List.dropWhile p l) = List.dropWhile p l :=
  dropWhile_eq_self_of_head p _ (dropWhile_head_false p l)

/-- `dropWhile` removes a prefix: the result is a suffix. -/
theorem exists_dropWhile_append (p : Char → Bool) :
    ∀ l : List Char, ∃ pre, l = pre ++ List.dropWhile p l := by
  intro l
  induction l with
  | nil => exact ⟨[], rfl⟩
  | cons c cs ih =>
    by_cases hp : p c
    · obtain ⟨pre, hpre⟩ := ih
      refine ⟨c :: pre, ?_⟩
      rw [List.dropWhile_cons, if_pos hp, List.cons_append, ← hpre]
    · exact ⟨[], by rw [List.dropWhile_cons, if_neg hp, List.nil_append]⟩

/-- Left strip is idempotent. -/
theorem lstrip_idem (l : List Char) : lstrip (lstrip l) = lstrip l :=
  dropWhile_idem wsC l

/-- Right strip is idempotent. -/
theorem rstrip_idem (l : List Char) : rstrip (rstrip l) = rstrip l := by
  unfold rstrip
  rw [List.reverse_reverse, dropWhile_idem]

/-- Right stripping preserves a whitespace-free head. -/
theorem rstrip_head_false (X : List Char)
    (h : ∀ a t, X = a :: t → wsC a = false) :
    ∀ a t, rstrip X = a :: t → wsC a = false := by
  obtain ⟨pre, hpre⟩ := exists_dropWhile_append wsC X.reverse
  intro a t hat
  have hX := congrArg List.reverse hpre
  rw [List.reverse_append, List.reverse_reverse] at hX
  have hat' : (List.dropWhile wsC X.reverse).reverse = a :: t := hat
  rw [hat'] at hX
  exact h a (t ++ pre.reverse) (by simpa using hX)

/-- Left strip after right strip of a left-stripped list is the
identity. -/
theorem lstrip_rstrip (X : List Char) (h : ∀ a t, X = a :: t → wsC a = false) :
    lstrip (rstrip X) = rstrip X :=
  dropWhile_eq_self_of_head wsC _ (rstrip_head_false X h)

/-- Python `strip` is idempotent on character lists. -/
theorem pyStrip_idem (l : List Char) : pyStrip (pyStrip l) = pyStrip l := by
  unfold pyStrip
  rw [lstrip_rstrip (lstrip l) (dropWhile_head_false wsC l), rstrip_idem]

/-- Stripping a list with no whitespace at all is the identity. -/
theorem pyStrip_eq_self_of_no_ws (l : List Char) (h : ∀ c ∈ l, wsC c = false) :
    pyStrip l = l := by
  have h1 : lstrip l = l :=
    dropWhile_eq_self_of_head wsC l fun a t hat => h a (hat ▸ List.mem_cons_self a t)
  have h2 : List.dropWhile wsC l.reverse = l.reverse :=
    dropWhile_eq_self_of_head wsC l.reverse fun a t hat =>
      h a (List.mem_reverse.mp (hat ▸ List.mem_cons_self a t))
  unfold pyStrip rstrip
  rw [h1, h2, List.reverse_reverse]

/-- `toList` after `mk` is the identity. -/
theorem toList_mk (l : List Char) : (String.mk l).toList = l := rfl

/-- `mk` after `toList` is the identity. -/
theorem mk_toList (s : String) : String.mk s.toList = s := rfl

/-- String-level strip is idempotent. -/
theorem stripS_idem (s : String) : stripS (stripS s) = stripS s := by
  unfold stripS
  rw [toList_mk, pyStrip_idem]

/-- Price characters are not whitespace. -/
theorem priceChar_no_ws (ch : Char) (h : priceChar ch = true) : wsC ch = false := by
  simp only [priceChar, Bool.or_eq_true, beq_iff_eq] at h
  rcases h with (hd | he) | he
  · simp only [digitC, Bool.and_eq_true, decide_eq_true_eq] at hd
    simp only [wsC, Bool.or_eq_false_iff, decide_eq_false_iff_not]
    omega
  · subst he
    decide
  · subst he
    decide

/-- Price characters are fixed by ASCII lower-casing. -/
theorem priceChar_lower_fixed (ch : Char) (h : priceChar ch = true) : lowChar ch = ch := by
  simp only [priceChar, Bool.or_eq_true, beq_iff_eq] at h
  rcases h with (hd | he) | he
  · simp only [digitC, Bool.and_eq_true, decide_eq_true_eq] at hd
    rw [lowChar, if_neg]
    omega
  · subst he
    decide
  · subst he
    decide

/-- Digits are price characters. -/
theorem digitC_priceChar (ch : Char) (h : digitC ch = true) : priceChar ch = true := by
  simp [priceChar, h]

/-- A string of price characters cannot equal a string containing a
non-price character. -/
theorem mk_ne_of_bad_char (l : List Char) (hall : ∀ ch ∈ l, priceChar ch = true)
    (s : String) (ch : Char) (hch : ch ∈ s.toList) (hbad : priceChar ch = false) :
    String.mk l ≠ s := by
  intro h
  have hl : l = s.toList := by
    have := congrArg String.toList h
    rwa [toList_mk] at this
  have := hall ch (hl ▸ hch)
  rw [hbad] at this
  exact Bool.noConfusion this

/-- Stripping a string of price characters is the identity. -/
theorem stripS_fixed_of_priceChars (c : String)
    (hall : ∀ ch ∈ c.toList, priceChar ch = true) : stripS c = c := by
  unfold stripS
  rw [pyStrip_eq_self_of_no_ws c.toList fun ch hch => priceChar_no_ws ch (hall ch hch)]
  exact mk_toList c

/-- Lower-casing a string of price characters is the identity. -/
theorem lowerS_fixed_of_priceChars (c : String)
    (hall : ∀ ch ∈ c.toList, priceChar ch = true) : lowerS c = c := by
  have hmap : List.map lowChar c.toList = c.toList := by
    have h2 : List.map lowChar c.toList = List.map id c.toList :=
      List.map_congr_left fun ch hch => priceChar_lower_fixed ch (hall ch hch)
    rw [h2, List.map_id]
  unfold lowerS pyLower
  rw [hmap]
  exact mk_toList c

/-- A nonempty string of price characters is not one of the special
markers. -/
theorem not_special_of_priceChars (c : String) (hne : c ≠ "")
    (hall : ∀ ch ∈ c.toList, priceChar ch = true) : c ∉ specialVals := by
  intro hm
  simp only [specialVals, List.mem_cons, List.not_mem_nil, or_false] at hm
  have hmkc : String.mk c.toList = c := mk_toList c
  rcases hm with h | h | h | h | h | h | h
  · exact hne h
  · exact mk_ne_of_bad_char c.toList hall ("n/a") 'n' (by decide) (by decide) (hmkc.trans h)
  · exact mk_ne_of_bad_char c.toList hall ("na") 'n' (by decide) (by decide) (hmkc.trans h)
  · exact mk_ne_of_bad_char c.toList hall ("null") 'u' (by decide) (by decide) (hmkc.trans h)
  · exact mk_ne_of_bad_char c.toList hall ("none") 'n' (by decide) (by decide) (hmkc.trans h)
  · exact mk_ne_of_bad_char c.toList hall ("?") '?' (by decide) (by decide) (hmkc.trans h)
  · exact mk_ne_of_bad_char c.toList hall ("-") '-' (by decide) (by decide) (hmkc.trans h)

/-- A string of price characters is not the sentinel. -/
theorem ne_nonDetecte_of_priceChars (c : String)
    (hall : ∀ ch ∈ c.toList, priceChar ch = true) : c ≠ nonDetecte := by
  have hmkc : String.mk c.toList = c := mk_toList c
  intro h
  exact mk_ne_of_bad_char c.toList hall nonDetecte 'N' (by decide) (by decide) (hmkc.trans h)

/-- A nonempty string means a nonempty character list. -/
theorem toList_ne_nil_of_ne_empty (c : String) (hne : c ≠ "") : c.toList ≠ [] := by
  intro h
  apply hne
  have := congrArg String.mk h
  rw [mk_toList] at this
  exact this

/-- `_clean_price` is the identity on a nonempty all-price-character
string. -/
theorem cleanPrice_fixed_of_priceChars (c : String) (hne : c ≠ "")
    (hall : ∀ ch ∈ c.toList, priceChar ch = true) : cleanPrice c = c := by
  unfold cleanPrice
  rw [if_neg (ne_nonDetecte_of_priceChars c hall)]
  have hfilter : c.toList.filter priceChar = c.toList := List.filter_eq_self.mpr hall
  rw [hfilter, mk_toList, if_neg hne]

/-- `_clean_barcode` is the identity on a nonempty all-digit string. -/
theorem cleanBarcode_fixed_of_digitChars (c : String) (hne : c ≠ "")
    (hall : ∀ ch ∈ c.toList, digitC ch = true) : cleanBarcode c = c := by
  unfold cleanBarcode
  rw [if_neg (ne_nonDetecte_of_priceChars c fun ch hch => digitC_priceChar ch (hall ch hch))]
  have hfilter : c.toList.filter digitC = c.toList := List.filter_eq_self.mpr hall
  rw [hfilter, mk_toList, if_neg hne]

/-- Cleaning any field of the sentinel value gives back the sentinel. -/
theorem cleanFieldVal_nonDetecte (f : Field) :
    cleanFieldVal f (.vstr nonDetecte) = .vstr nonDetecte := by
  cases f <;> decide

/-- Cleaning a field value of a string reduces to cleaning the stripped
string once the specials test is settled; this is the generic-field
branch. -/
theorem cleanFieldVal_generic (f : Field) (hp : f ≠ Field.prix_fcfa)
    (hv : f ≠ Field.volume) (hb : f ≠ Field.code_barres_ean) (s0 : String) :
    cleanFieldVal f (.vstr s0) =
      if lowerS (stripS s0) ∈ specialVals then PyVal.vstr nonDetecte
      else .vstr (stripS s0) := by
  simp only [cleanFieldVal, if_neg hp, if_neg hv, if_neg hb]

/-- Cleaning the output of `_clean_price` again changes nothing. -/
theorem cleanFieldVal_price_output (s : String) :
    cleanFieldVal Field.prix_fcfa (.vstr (cleanPrice s)) = .vstr (cleanPrice s) := by
  by_cases h1 : s = nonDetecte
  · have hc : cleanPrice s = nonDetecte := by
      rw [h1]
      simp [cleanPrice]
    rw [hc]
    exact cleanFieldVal_nonDetecte _
  · have hc : cleanPrice s =
        if String.mk (s.toList.filter priceChar) = "" then nonDetecte
        else String.mk (s.toList.filter priceChar) := by
      rw [cleanPrice, if_neg h1]
    by_cases h2 : String.mk (s.toList.filter priceChar) = ""
    · rw [hc, if_pos h2]
      exact cleanFieldVal_nonDetecte _
    · rw [hc, if_neg h2]
      have hall : ∀ ch ∈ (String.mk (s.toList.filter priceChar)).toList, priceChar ch = true := by
        intro ch hch
        rw [toList_mk] at hch
        exact List.of_mem_filter hch
      have hstrip := stripS_fixed_of_priceChars _ hall
      have hlow := lowerS_fixed_of_priceChars _ hall
      have hns := not_special_of_priceChars _ h2 hall
      show cleanFieldVal Field.prix_fcfa (.vstr (String.mk (s.toList.filter priceChar))) = _
      rw [cleanFieldVal]
      rw [hstrip, hlow, if_neg hns, if_pos rfl]
      rw [cleanPrice_fixed_of_priceChars _ h2 hall]

/-- Cleaning the output of `_clean_barcode` again changes nothing. -/
theorem cleanFieldVal_barcode_output (s : String) :
    cleanFieldVal Field.code_barres_ean (.vstr (cleanBarcode s)) = .vstr (cleanBarcode s) := by
  by_cases h1 : s = nonDetecte
  · have hc : cleanBarcode s = nonDetecte := by
      rw [h1]
      simp [cleanBarcode]
    rw [hc]
    exact cleanFieldVal_nonDetecte _
  · have hc : cleanBarcode s =
        if String.mk (s.toList.filter digitC) = "" then nonDetecte
        else String.mk (s.toList.filter digitC) := by
      rw [cleanBarcode, if_neg h1]
    by_cases h2 : String.mk (s.toList.filter digitC) = ""
    · rw [hc, if_pos h2]
      exact cleanFieldVal_nonDetecte _
    · rw [hc, if_neg h2]
      have halld : ∀ ch ∈ (String.mk (s.toList.filter digitC)).toList, digitC ch = true := by
        intro ch hch
        rw [toList_mk] at hch
        exact List.of_mem_filter hch
      have hall : ∀ ch ∈ (String.mk (s.toList.filter digitC)).toList, priceChar ch = true :=
        fun ch hch => digitC_priceChar ch (halld ch hch)
      have hstrip := stripS_fixed_of_priceChars _ hall
      have hlow := lowerS_fixed_of_priceChars _ hall
      have hns := not_special_of_priceChars _ h2 hall
      show cleanFieldVal Field.code_barres_ean (.vstr (String.mk (s.toList.filter digitC))) = _
      rw [cleanFieldVal]
      rw [hstrip, hlow, if_neg hns]
      rw [if_neg (by decide : ¬(Field.code_barres_ean = Field.prix_fcfa))]
      rw [if_neg (by decide : ¬(Field.code_barres_ean = Field.volume))]
      rw [if_pos rfl]
      rw [cleanBarcode_fixed_of_digitChars _ h2 halld]

/-- Per-field cleaning is idempotent on every field except the volume
field. -/
theorem cleanFieldVal_idem (f : Field) (hf : f ≠ Field.volume) (v : PyVal) :
    cleanFieldVal f (cleanFieldVal f v) = cleanFieldVal f v := by
  match v with
  | .vnone => rfl
  | .vother i t => rfl
  | .vstr s0 =>
    by_cases hsp : lowerS (stripS s0) ∈ specialVals
    · have h1 : cleanFieldVal f (.vstr s0) = .vstr nonDetecte := by
        rw [cleanFieldVal, if_pos hsp]
      rw [h1, cleanFieldVal_nonDetecte]
    · by_cases hp : f = Field.prix_fcfa
      · subst hp
        have h1 : cleanFieldVal Field.prix_fcfa (.vstr s0) = .vstr (cleanPrice (stripS s0)) := by
          rw [cleanFieldVal, if_neg hsp, if_pos rfl]
        rw [h1, cleanFieldVal_price_output]
      · by_cases hb : f = Field.code_barres_ean
        · subst hb
          have h1 : cleanFieldVal Field.code_barres_ean (.vstr s0) =
              .vstr (cleanBarcode (stripS s0)) := by
            rw [cleanFieldVal, if_neg hsp]
            rw [if_neg (by decide : ¬(Field.code_barres_ean = Field.prix_fcfa))]
            rw [if_neg (by decide : ¬(Field.code_barres_ean = Field.volume))]
            rw [if_pos rfl]
          rw [h1, cleanFieldVal_barcode_output]
        · have h1 : cleanFieldVal f (.vstr s0) =
              if lowerS (stripS s0) ∈ specialVals then PyVal.vstr nonDetecte
              else .vstr (stripS s0) := cleanFieldVal_generic f hp hf hb s0
          rw [h1, if_neg hsp]
          have h2 := cleanFieldVal_generic f hp hf hb (stripS s0)
          rw [h2, stripS_idem, if_neg hsp]

/-- Claim C4 (amended). Cleaning an already-cleaned record leaves the
metadata and every schema field except `volume` unchanged (sentinel and
price/barcode substitutions are fixed points); the volume field alone
can change again, as the counterexample shows. -/
theorem clean_result_idempotent_off_volume (r : RawRecord) :
    (cleanResult (cleanResult r).toRaw).nom_fichier = (cleanResult r).nom_fichier ∧
    (cleanResult (cleanResult r).toRaw).chemin_fichier = (cleanResult r).chemin_fichier ∧
    (cleanResult (cleanResult r).toRaw).erreur = (cleanResult r).erreur ∧
    ∀ f, f ≠ Field.volume →
      (cleanResult (cleanResult r).toRaw).fields f = (cleanResult r).fields f := by
  refine ⟨rfl, rfl, rfl, ?_⟩
  intro f hf
  exact cleanFieldVal_idem f hf ((r.fields f).getD (.vstr nonDetecte))

/-- Claim C4 witness: on the volume counterexample record, the price
field (and metadata) are indeed stable under a second cleaning. -/
theorem clean_result_idempotent_off_volume_witness :
    (cleanResult (cleanResult volumeRawRecord).toRaw).nom_fichier =
        (cleanResult volumeRawRecord).nom_fichier ∧
      (cleanResult (cleanResult volumeRawRecord).toRaw).fields Field.prix_fcfa =
        (cleanResult volumeRawRecord).fields Field.prix_fcfa :=
  ⟨(clean_result_idempotent_off_volume volumeRawRecord).1,
    (clean_result_idempotent_off_volume volumeRawRecord).2.2.2 Field.prix_fcfa (by decide)⟩

/-- Invariant of a single processed record: score within bounds, a
three-valued status, and `Complet` exactly when error-free and scoring
at least 80. -/
theorem processOne_spec (now : String) (seq : ℕ) (r : RawRecord) :
    0 ≤ (processOne now seq r).score_completude ∧
    (processOne now seq r).score_completude ≤ 100 ∧
    ((processOne now seq r).statut = "Erreur" ∨ (processOne now seq r).statut = "Complet" ∨
      (processOne now seq r).statut = "Partiel") ∧
    ((processOne now seq r).statut = "Complet" ↔
      (processOne now seq r).erreur = none ∧ 80 ≤ (processOne now seq r).score_completude) := by
  have hproj_score : (processOne now seq r).score_completude = completeness (cleanResult r) := rfl
  have hproj_statut : (processOne now seq r).statut =
      (if (cleanResult r).erreur.isSome then ("Erreur")
        else if 80 ≤ completeness (cleanResult r) then ("Complet") else ("Partiel")) := rfl
  have hproj_err : (processOne now seq r).erreur = (cleanResult r).erreur := rfl
  have hcount : (schemaFields.countP fun f => fieldComplete ((cleanResult r).fields f)) ≤ 7 :=
    List.countP_le_length _
  have h0 : 0 ≤ completeness (cleanResult r) := by
    unfold completeness
    positivity
  have h100 : completeness (cleanResult r) ≤ 100 := by
    unfold completeness
    have hc : ((schemaFields.countP fun f => fieldComplete ((cleanResult r).fields f) : ℕ) : ℚ) ≤ 7 := by
      exact_mod_cast hcount
    have hlen : ((schemaFields.length : ℕ) : ℚ) = 7 := by norm_num [schemaFields]
    rw [hlen, div_mul_eq_mul_div, div_le_iff₀ (by norm_num : (0 : ℚ) < 7)]
    linarith
  refine ⟨hproj_score ▸ h0, hproj_score ▸ h100, ?_, ?_⟩
  · rw [hproj_statut]
    by_cases he : (cleanResult r).erreur.isSome
    · rw [if_pos he]
      exact Or.inl rfl
    · rw [if_neg he]
      by_cases hs : 80 ≤ completeness (cleanResult r)
      · rw [if_pos hs]
        exact Or.inr (Or.inl rfl)
      · rw [if_neg hs]
        exact Or.inr (Or.inr rfl)
  · rw [hproj_statut, hproj_err, hproj_score]
    by_cases he : (cleanResult r).erreur.isSome
    · rw [if_pos he]
      constructor
      · intro h
        exact absurd h (by decide)
      · intro ⟨hnone, _⟩
        rw [hnone] at he
        exact Bool.noConfusion he
    · have hnone : (cleanResult r).erreur = none := Option.not_isSome_iff_eq_none.mp he
      rw [if_neg he]
      by_cases hs : 80 ≤ completeness (cleanResult r)
      · rw [if_pos hs]
        exact ⟨fun _ => ⟨hnone, hs⟩, fun _ => rfl⟩
      · rw [if_neg hs]
        constructor
        · intro h
          exact absurd h (by decide)
        · intro ⟨_, hsc⟩
          exact absurd hsc hs

/-- Claim C3. Every record emitted by `process_results` has a
completeness score in [0, 100], a status among `Erreur`, `Complet`,
`Partiel`, and status `Complet` exactly when the cleaned record carries
no `erreur` key and its score is at least 80. -/
theorem processed_record_invariant (now : String) (raws : List RawRecord) :
    ∀ p ∈ processResults now raws,
      0 ≤ p.score_completude ∧ p.score_completude ≤ 100 ∧
      (p.statut = "Erreur" ∨ p.statut = "Complet" ∨ p.statut = "Partiel") ∧
      (p.statut = "Complet" ↔ p.erreur = none ∧ 80 ≤ p.score_completude) := by
  unfold processResults
  generalize (1 : ℕ) = i
  induction raws generalizing i with
  | nil =>
    intro p hp
    exact absurd hp (by simp [processResultsFrom])
  | cons r rs ih =>
    intro p hp
    rw [processResultsFrom] at hp
    rcases List.mem_cons.mp hp with h | h
    · subst h
      exact processOne_spec now i r
    · exact ih (i + 1) p h

/-- Claim C3 witness: the invariant instantiated on the processed
version of a concrete record. -/
theorem processed_record_invariant_witness :
    0 ≤ (processOne ("t0") 1 volumeRawRecord).score_completude ∧
      (processOne ("t0") 1 volumeRawRecord).score_completude ≤ 100 ∧
      ((processOne ("t0") 1 volumeRawRecord).statut = "Erreur" ∨
        (processOne ("t0") 1 volumeRawRecord).statut = "Complet" ∨
        (processOne ("t0") 1 volumeRawRecord).statut = "Partiel") ∧
      ((processOne ("t0") 1 volumeRawRecord).statut = "Complet" ↔
        (processOne ("t0") 1 volumeRawRecord).erreur = none ∧
          80 ≤ (processOne ("t0") 1 volumeRawRecord).score_completude) :=
  processed_record_invariant ("t0") [volumeRawRecord]
    (processOne ("t0") 1 volumeRawRecord) (List.Mem.head _)

/-- Membership in the `process_results` loop output comes from
processing a member of the input. -/
theorem mem_processResultsFrom (now : String) :
    ∀ (i : ℕ) (rs : List RawRecord) (p : ProcRecord), p ∈ processResultsFrom now i rs →
      ∃ j r, r ∈ rs ∧ p = processOne now j r := by
  intro i rs
  induction rs generalizing i with
  | nil =>
    intro p hp
    exact absurd hp (by simp [processResultsFrom])
  | cons r rs ih =>
    intro p hp
    rw [processResultsFrom] at hp
    rcases List.mem_cons.mp hp with h | h
    · exact ⟨i, r, List.mem_cons_self r rs, h⟩
    · obtain ⟨j, r', hm, he⟩ := ih (i + 1) p h
      exact ⟨j, r', List.mem_cons_of_mem r hm, he⟩

/-- Claim C2 (amended). When a batch fails (all retries exhausted,
message `msg`), every image of the batch yields one error record; in it
the six schema fields other than `source_information` carry the
`Erreur d'analyse` sentinel, while `source_information` carries
`Erreur: {msg}`; the `erreur` key holds the message, and after
normalization the record has status `Erreur` and its error-message
field still populated with `msg`. -/
theorem failed_batch_error_records (batch : List Img) (msg now : String) :
    (batchResults (BatchOutcome.failure msg) batch).length = batch.length ∧
    (∀ r ∈ batchResults (BatchOutcome.failure msg) batch,
      r.fields Field.source_information = some (.vstr ("Erreur: " ++ msg)) ∧
      (∀ f, f ≠ Field.source_information → r.fields f = some (.vstr erreurAnalyse)) ∧
      r.erreur = some msg) ∧
    (∀ p ∈ processResults now (batchResults (BatchOutcome.failure msg) batch),
      p.statut = "Erreur" ∧ p.erreur = some msg) := by
  refine ⟨List.length_map batch _, ?_, ?_⟩
  · intro r hr
    obtain ⟨img, _, rfl⟩ := List.mem_map.mp hr
    refine ⟨?_, ?_, rfl⟩
    · simp [createErrorResult]
    · intro f hf
      simp [createErrorResult, hf]
  · intro p hp
    obtain ⟨j, r', hm, rfl⟩ := mem_processResultsFrom now 1 _ p hp
    obtain ⟨img, _, rfl⟩ := List.mem_map.mp hm
    exact ⟨rfl, rfl⟩

/-- Claim C2 witness: the processed error record of a one-image failed
batch has status `Erreur` and the message preserved. -/
theorem failed_batch_error_records_witness :
    (processOne ("t0") 1 (createErrorResult ⟨"a.jpg", "in/a.jpg"⟩ ("boom"))).statut = "Erreur" ∧
      (processOne ("t0") 1 (createErrorResult ⟨"a.jpg", "in/a.jpg"⟩ ("boom"))).erreur =
        some ("boom") :=
  (failed_batch_error_records [⟨"a.jpg", "in/a.jpg"⟩] ("boom") ("t0")).2.2
    (processOne ("t0") 1 (createErrorResult ⟨"a.jpg", "in/a.jpg"⟩ ("boom"))) (List.Mem.head _)

/-- The product loop emits one record per returned product. -/
theorem annotateProducts_length (imgs : List Img) :
    ∀ (i : ℕ) (ps : List RawRecord), (annotateProducts imgs i ps).length = ps.length := by
  intro i ps
  induction ps generalizing i with
  | nil => rfl
  | cons p ps ih =>
    show (annotateProducts imgs i (p :: ps)).length = ps.length + 1
    rw [annotateProducts, List.length_cons, ih (i + 1)]

/-- The j-th record of the product loop is the j-th product annotated
for position `i + j`. -/
theorem annotateProducts_getElem (imgs : List Img) :
    ∀ (ps : List RawRecord) (i j : ℕ) (h : j < ps.length),
      (annotateProducts imgs i ps)[j]? = some (annotateOne imgs (i + j) ps[j]) := by
  intro ps
  induction ps with
  | nil =>
    intro i j h
    exact absurd h (Nat.not_lt_zero j)
  | cons p ps ih =>
    intro i j h
    match j with
    | 0 => simp [annotateProducts]
    | j + 1 =>
      show (annotateOne imgs i p :: annotateProducts imgs (i + 1) ps)[j + 1]? = _
      rw [List.getElem?_cons_succ, ih (i + 1) j (by simpa using Nat.lt_of_succ_lt_succ h)]
      rw [show i + 1 + j = i + (j + 1) from by omega]
      rw [List.getElem_cons_succ]

/-- Claim C8. When the model returns fewer products than the batch has
images, `_parse_gemini_response` pads the tail with empty placeholders:
the output has exactly one record per image; position `i` below the
product count carries the i-th product annotated with the i-th image's
(stripped) name; every tail position carries a placeholder whose
`nom_fichier` is the image's name, whose `source_information` is
`Non analysé`, and whose other schema fields are all `Non détecté`. -/
theorem short_response_padding (batch : List Img) (ps : List RawRecord)
    (h : ps.length ≤ batch.length) :
    (parseOkResults batch ps).length = batch.length ∧
    (∀ i, i < ps.length →
      ∃ r img, (parseOkResults batch ps)[i]? = some r ∧ batch[i]? = some img ∧
        r.nom_fichier = some (stripS img.name)) ∧
    (∀ i, ps.length ≤ i → i < batch.length →
      ∃ r img, (parseOkResults batch ps)[i]? = some r ∧ batch[i]? = some img ∧
        r.nom_fichier = some img.name ∧
        r.fields Field.source_information = some (.vstr ("Non analysé")) ∧
        (∀ f, f ≠ Field.source_information → r.fields f = some (.vstr nonDetecte))) := by
  have hA : (annotateProducts batch 0 ps).length = ps.length := annotateProducts_length batch 0 ps
  refine ⟨?_, ?_, ?_⟩
  · unfold parseOkResults
    rw [List.length_append, hA, List.length_map, List.length_drop]
    omega
  · intro i hi
    have hib : i < batch.length := by omega
    have hbi : batch[i]? = some batch[i] := List.getElem?_eq_getElem hib
    refine ⟨annotateOne batch i ps[i], batch[i], ?_, hbi, ?_⟩
    · unfold parseOkResults
      rw [List.getElem?_append_left (by omega : i < (annotateProducts batch 0 ps).length)]
      have h0 := annotateProducts_getElem batch ps 0 i (by omega)
      rw [show (0 : ℕ) + i = i from by omega] at h0
      exact h0
    · show (annotateOne batch i ps[i]).nom_fichier = _
      simp only [annotateOne, hbi]
  · intro i hpi hib
    have hbi : batch[i]? = some batch[i] := List.getElem?_eq_getElem hib
    refine ⟨createEmptyResult batch[i], batch[i], ?_, hbi, rfl, ?_, ?_⟩
    · unfold parseOkResults
      rw [List.getElem?_append_right (by omega : (annotateProducts batch 0 ps).length ≤ i)]
      rw [List.getElem?_map, hA, List.getElem?_drop]
      rw [show ps.length + (i - ps.length) = i from by omega]
      rw [hbi]
      rfl
    · simp [createEmptyResult]
    · intro f hf
      simp [createEmptyResult, hf]

/-- Claim C8 witness: two products for a three-image batch — the third
record is the `Non analysé` placeholder for the third image. -/
theorem short_response_padding_witness :
    ∃ r img, (parseOkResults sampleImgs [blankProduct, blankProduct])[2]? = some r ∧
      sampleImgs[2]? = some img ∧
      r.nom_fichier = some img.name ∧
      r.fields Field.source_information = some (.vstr ("Non analysé")) ∧
      (∀ f, f ≠ Field.source_information → r.fields f = some (.vstr nonDetecte)) :=
  (short_response_padding sampleImgs [blankProduct, blankProduct] (by decide)).2.2 2
    (by decide) (by decide)

/-- The filenames attached by the product loop are the (stripped) names
of the batch images, by position. -/
theorem annotateProducts_map_nom (batch : List Img) :
    ∀ (ps : List RawRecord) (i : ℕ), i + ps.length ≤ batch.length →
      (annotateProducts batch i ps).map (·.nom_fichier) =
        ((batch.drop i).take ps.length).map fun img => some (stripS img.name) := by
  intro ps
  induction ps with
  | nil => intro i _; rfl
  | cons p ps ih =>
    intro i h
    have hi : i < batch.length := by
      have := h
      simp only [List.length_cons] at this
      omega
    have hb : batch[i]? = some batch[i] := List.getElem?_eq_getElem hi
    have hnom : (annotateOne batch i p).nom_fichier = some (stripS batch[i].name) := by
      simp only [annotateOne, hb]
    have hdrop : batch.drop i = batch[i] :: batch.drop (i + 1) := List.drop_eq_getElem_cons hi
    rw [show annotateProducts batch i (p :: ps) =
        annotateOne batch i p :: annotateProducts batch (i + 1) ps from rfl]
    simp only [List.length_cons]
    rw [hdrop, List.take_succ_cons, List.map_cons, List.map_cons, hnom]
    rw [ih (i + 1) (by simp only [List.length_cons] at h; omega)]

/-- On the parse-success path with no over-returned products, the
filename column equals the batch image names (the matched head stripped
by validation, the padded tail copied as is). -/
theorem parseOk_map_nom (batch : List Img) (ps : List RawRecord)
    (h : ps.length ≤ batch.length)
    (htrim : ∀ img ∈ batch, stripS img.name = img.name) :
    (parseOkResults batch ps).map (·.nom_fichier) = batch.map fun img => some img.name := by
  have hA : (annotateProducts batch 0 ps).length = ps.length := annotateProducts_length batch 0 ps
  unfold parseOkResults
  rw [List.map_append, hA]
  rw [annotateProducts_map_nom batch ps 0 (by omega), List.drop_zero]
  rw [List.map_map]
  have h1 : ((batch.take ps.length).map fun img => some (stripS img.name)) =
      (batch.take ps.length).map fun img => some img.name :=
    List.map_congr_left fun img hm => by rw [htrim img (List.mem_of_mem_take hm)]
  have h2 : (batch.drop ps.length).map ((·.nom_fichier) ∘ createEmptyResult) =
      (batch.drop ps.length).map fun img => some img.name := rfl
  rw [h1, h2, ← List.map_append, List.take_append_drop]

/-- On the error paths, the filename column also equals the batch image
names. -/
theorem errorResults_map_nom (batch : List Img) (msg : String) :
    ((batch.map fun img => createErrorResult img msg).map (·.nom_fichier)) =
      batch.map fun img => some img.name := by
  rw [List.map_map]
  rfl

/-- For any batch outcome that does not over-return, the filename
column of the batch's records equals the batch image names. -/
theorem batchResults_map_nom (o : BatchOutcome) (batch : List Img)
    (hover : ∀ ps, o = .ok ps → ps.length ≤ batch.length)
    (htrim : ∀ img ∈ batch, stripS img.name = img.name) :
    (batchResults o batch).map (·.nom_fichier) = batch.map fun img => some img.name := by
  match o with
  | .ok ps => exact parseOk_map_nom batch ps (hover ps rfl) htrim
  | .jsonError => exact errorResults_map_nom batch _
  | .failure msg => exact errorResults_map_nom batch msg

/-- The filename column of the whole batch loop equals the
concatenation of the batch image names. -/
theorem analyzeBatchesFrom_map_nom (oracle : ℕ → BatchOutcome) :
    ∀ (chunks : List (List Img)) (k : ℕ),
      (∀ j ps (hj : j < chunks.length), oracle (k + j) = .ok ps → ps.length ≤ chunks[j].length) →
      (∀ img ∈ chunks.flatten, stripS img.name = img.name) →
      (analyzeBatchesFrom oracle k chunks).map (·.nom_fichier) =
        chunks.flatten.map fun img => some img.name := by
  intro chunks
  induction chunks with
  | nil => intro k _ _; rfl
  | cons b rest ih =>
    intro k hover htrim
    rw [show analyzeBatchesFrom oracle k (b :: rest) =
        batchResults (oracle k) b ++ analyzeBatchesFrom oracle (k + 1) rest from rfl]
    rw [List.map_append, List.flatten_cons, List.map_append]
    congr 1
    · apply batchResults_map_nom
      · intro ps hps
        have h0 := hover 0 ps (by simp) (by simpa using hps)
        simpa using h0
      · intro img hm
        exact htrim img (List.mem_flatten.mpr ⟨b, List.mem_cons_self b rest, hm⟩)
    · apply ih (k + 1)
      · intro j ps hj heq
        have h0 := hover (j + 1) ps (by simpa using Nat.succ_lt_succ hj)
          (by rw [show k + 1 + j = k + (j + 1) from by omega] at heq; exact heq)
        simpa using h0
      · intro img hm
        refine htrim img ?_
        rw [List.flatten_cons]
        exact List.mem_append.mpr (Or.inr hm)

/-- Rebatching never loses or duplicates an image. -/
theorem chunksOfGo_flatten (bs : ℕ) :
    ∀ (fuel : ℕ) (l : List Img), l.length ≤ fuel → (chunksOfGo bs fuel l).flatten = l := by
  intro fuel
  induction fuel with
  | zero =>
    intro l h
    have hl : l = [] := List.eq_nil_of_length_eq_zero (by omega)
    subst hl
    rfl
  | succ n ih =>
    intro l h
    match l with
    | [] => rfl
    | x :: xs =>
      rw [show chunksOfGo bs (n + 1) (x :: xs) =
          (x :: xs.take (bs - 1)) :: chunksOfGo bs n (xs.drop (bs - 1)) from rfl]
      rw [List.flatten_cons]
      rw [ih (xs.drop (bs - 1)) (by simp only [List.length_drop]; simp at h; omega)]
      rw [List.cons_append, List.take_append_drop]

/-- The batches of `analyze_images` concatenate back to the input. -/
theorem chunksOf_flatten (bs : ℕ) (l : List Img) : (chunksOf bs l).flatten = l :=
  chunksOfGo_flatten bs l.length l (le_refl _)

/-- `process_results` keeps the filename column unchanged. -/
theorem processResultsFrom_map_nom (now : String) :
    ∀ (i : ℕ) (rs : List RawRecord),
      (processResultsFrom now i rs).map (·.nom_fichier) = rs.map (·.nom_fichier) := by
  intro i rs
  induction rs generalizing i with
  | nil => rfl
  | cons r rs ih =>
    show (processOne now i r).nom_fichier ::
        (processResultsFrom now (i + 1) rs).map (·.nom_fichier) =
      r.nom_fichier :: rs.map (·.nom_fichier)
    rw [ih (i + 1)]
    rfl

/-- The parse-success path emits one record per batch image when the
model did not over-return. -/
theorem parseOkResults_length (batch : List Img) (ps : List RawRecord)
    (h : ps.length ≤ batch.length) :
    (parseOkResults batch ps).length = batch.length := by
  have hA : (annotateProducts batch 0 ps).length = ps.length := annotateProducts_length batch 0 ps
  unfold parseOkResults
  rw [List.length_append, hA, List.length_map, List.length_drop]
  omega

/-- Every batch outcome that does not over-return contributes exactly
one record per batch image. -/
theorem batchResults_length (o : BatchOutcome) (batch : List Img)
    (hover : ∀ ps, o = .ok ps → ps.length ≤ batch.length) :
    (batchResults o batch).length = batch.length := by
  match o with
  | .ok ps => exact parseOkResults_length batch ps (hover ps rfl)
  | .jsonError => exact List.length_map batch _
  | .failure msg => exact List.length_map batch _

/-- The batch loop emits one record per image overall. -/
theorem analyzeBatchesFrom_length (oracle : ℕ → BatchOutcome) :
    ∀ (chunks : List (List Img)) (k : ℕ),
      (∀ j ps (hj : j < chunks.length), oracle (k + j) = .ok ps → ps.length ≤ chunks[j].length) →
      (analyzeBatchesFrom oracle k chunks).length = chunks.flatten.length := by
  intro chunks
  induction chunks with
  | nil => intro k _; rfl
  | cons b rest ih =>
    intro k hover
    rw [show analyzeBatchesFrom oracle k (b :: rest) =
        batchResults (oracle k) b ++ analyzeBatchesFrom oracle (k + 1) rest from rfl]
    rw [List.length_append, List.flatten_cons, List.length_append]
    congr 1
    · apply batchResults_length
      intro ps hps
      have h0 := hover 0 ps (by simp) (by simpa using hps)
      simpa using h0
    · apply ih (k + 1)
      intro j ps hj heq
      have h0 := hover (j + 1) ps (by simpa using Nat.succ_lt_succ hj)
        (by rw [show k + 1 + j = k + (j + 1) from by omega] at heq; exact heq)
      simpa using h0

/-- `process_results` emits one record per raw result. -/
theorem processResultsFrom_length (now : String) (i : ℕ) (rs : List RawRecord) :
    (processResultsFrom now i rs).length = rs.length := by
  have h := congrArg List.length (processResultsFrom_map_nom now i rs)
  simpa using h

/-- Claim C1. When every parsed batch returns at most as many products
as it has images, the classifier followed by the normalizer emits
exactly one record per input image — the output length equals the
input length — and the records are in input order: whenever the image
names carry no surrounding whitespace, the filename column is exactly
the input image names in order, so no position is dropped or
duplicated. -/
theorem batch_pipeline_one_record_per_image (bs : ℕ) (oracle : ℕ → BatchOutcome)
    (imgs : List Img) (now : String)
    (hover : ∀ j ps (hj : j < (chunksOf bs imgs).length),
      oracle j = .ok ps → ps.length ≤ ((chunksOf bs imgs)[j]).length) :
    (processResults now (analyzeImages bs oracle imgs)).length = imgs.length ∧
    ((∀ img ∈ imgs, stripS img.name = img.name) →
      (processResults now (analyzeImages bs oracle imgs)).map (·.nom_fichier) =
        imgs.map fun img => some img.name) := by
  have hflat := chunksOf_flatten bs imgs
  have h1 : ∀ j ps (hj : j < (chunksOf bs imgs).length),
      oracle (0 + j) = .ok ps → ps.length ≤ ((chunksOf bs imgs)[j]).length := by
    intro j ps hj heq
    exact hover j ps hj (by simpa using heq)
  constructor
  · unfold processResults analyzeImages
    rw [processResultsFrom_length]
    rw [analyzeBatchesFrom_length oracle (chunksOf bs imgs) 0 h1]
    rw [hflat]
  · intro htrim
    have h2 : ∀ img ∈ (chunksOf bs imgs).flatten, stripS img.name = img.name := by
      intro img hm
      exact htrim img (hflat ▸ hm)
    unfold processResults analyzeImages
    rw [processResultsFrom_map_nom]
    rw [analyzeBatchesFrom_map_nom oracle (chunksOf bs imgs) 0 h1 h2]
    rw [hflat]

/-- Claim C1 witness: three images in batches of two, first batch
under-returns, second fails — still one record per image, in order. -/
theorem batch_pipeline_one_record_per_image_witness :
    (processResults ("t0") (analyzeImages 2 sampleOracle sampleImgs)).length =
        sampleImgs.length ∧
      (processResults ("t0") (analyzeImages 2 sampleOracle sampleImgs)).map (·.nom_fichier) =
        sampleImgs.map fun img => some img.name := by
  have h := batch_pipeline_one_record_per_image 2 sampleOracle sampleImgs ("t0")
    (by
      intro j ps hj heq
      match j, heq with
      | 0, heq =>
        have h0 : BatchOutcome.ok [blankProduct] = BatchOutcome.ok ps := heq
        have hps : [blankProduct] = ps := by
          injection h0
        rw [← hps]
        exact (by decide : (1 : ℕ) ≤ 2)
      | j + 1, heq =>
        exact absurd heq (by simp [sampleOracle]))
  exact ⟨h.1, h.2 (by decide)⟩

/-- Characters with equal code points are equal. -/
theorem char_eq_of_toNat_eq (a b : Char) (h : a.toNat = b.toNat) : a = b := by
  have hv : a.val = b.val := by
    have h2 : a.val.toNat = b.val.toNat := h
    exact UInt32.toNat.inj h2
  exact Char.ext hv

/-- Lexicographic comparison is asymmetric. -/
theorem lexLt_asymm : ∀ a b, lexLt a b = true → lexLt b a = false := by
  intro a
  induction a with
  | nil =>
    intro b h
    cases b with
    | nil => exact absurd h (by decide)
    | cons y ys => rfl
  | cons x xs ih =>
    intro b h
    cases b with
    | nil => exact absurd h (by simp [lexLt])
    | cons y ys =>
      by_cases h1 : x.toNat < y.toNat
      · rw [lexLt, if_neg (by omega), if_pos h1]
      · by_cases h2 : y.toNat < x.toNat
        · rw [lexLt, if_neg h1, if_pos h2] at h
          exact Bool.noConfusion h
        · rw [lexLt, if_neg h1, if_neg h2] at h
          rw [lexLt, if_neg h2, if_neg h1]
          exact ih ys h

/-- Lexicographic comparison is transitive. -/
theorem lexLt_trans : ∀ a b c, lexLt a b = true → lexLt b c = true → lexLt a c = true := by
  intro a
  induction a with
  | nil =>
    intro b c hab hbc
    cases c with
    | nil =>
      cases b with
      | nil => exact absurd hab (by decide)
      | cons y ys => exact absurd hbc (by simp [lexLt])
    | cons z zs => rfl
  | cons x xs ih =>
    intro b c hab hbc
    cases b with
    | nil => exact absurd hab (by simp [lexLt])
    | cons y ys =>
      cases c with
      | nil => exact absurd hbc (by simp [lexLt])
      | cons z zs =>
        by_cases h1 : x.toNat < y.toNat
        · by_cases h2 : y.toNat < z.toNat
          · rw [lexLt, if_pos (by omega)]
          · by_cases h3 : z.toNat < y.toNat
            · rw [lexLt, if_neg h2, if_pos h3] at hbc
              exact Bool.noConfusion hbc
            · rw [lexLt, if_pos (by omega)]
        · by_cases h1' : y.toNat < x.toNat
          · rw [lexLt, if_neg h1, if_pos h1'] at hab
            exact Bool.noConfusion hab
          · rw [lexLt, if_neg h1, if_neg h1'] at hab
            by_cases h2 : y.toNat < z.toNat
            · rw [lexLt, if_pos (by omega)]
            · by_cases h3 : z.toNat < y.toNat
              · rw [lexLt, if_neg h2, if_pos h3] at hbc
                exact Bool.noConfusion hbc
              · rw [lexLt, if_neg h2, if_neg h3] at hbc
                rw [lexLt, if_neg (by omega), if_neg (by omega)]
                exact ih ys zs hab hbc

/-- Two lists neither of which lexicographically precedes the other are
equal. -/
theorem lexLt_connex : ∀ a b, lexLt a b = false → lexLt b a = false → a = b := by
  intro a
  induction a with
  | nil =>
    intro b h1 _
    cases b with
    | nil => rfl
    | cons y ys => exact absurd h1 (by simp [lexLt])
  | cons x xs ih =>
    intro b h1 h2
    cases b with
    | nil => exact absurd h2 (by simp [lexLt])
    | cons y ys =>
      by_cases hx : x.toNat < y.toNat
      · rw [lexLt, if_pos hx] at h1
        exact Bool.noConfusion h1
      · by_cases hy : y.toNat < x.toNat
        · rw [lexLt, if_pos hy] at h2
          exact Bool.noConfusion h2
        · have hxy : x = y := char_eq_of_toNat_eq x y (by omega)
          rw [lexLt, if_neg hx, if_neg hy] at h1
          rw [lexLt, if_neg hy, if_neg hx] at h2
          rw [hxy, ih ys h1 h2]

/-- The string order is transitive. -/
theorem strLe_trans (a b c : String) (hab : strLe a b) (hbc : strLe b c) : strLe a c := by
  unfold strLe at hab hbc ⊢
  by_contra hac
  have hca : lexLt c.toList a.toList = true := by
    cases h : lexLt c.toList a.toList
    · exact absurd h hac
    · rfl
  by_cases h1 : lexLt a.toList b.toList = true
  · have := lexLt_trans c.toList a.toList b.toList hca h1
    rw [this] at hbc
    exact Bool.noConfusion hbc
  · have hba : a.toList = b.toList := by
      apply lexLt_connex
      · cases h : lexLt a.toList b.toList
        · rfl
        · exact absurd h h1
      · exact hab
    rw [← hba] at hbc
    rw [hca] at hbc
    exact Bool.noConfusion hbc

/-- Everything inserted is the inserted element or an original one. -/
theorem mem_insertSorted (s : String) :
    ∀ (l : List String) (x : String), x ∈ insertSorted s l ↔ x = s ∨ x ∈ l := by
  intro l
  induction l with
  | nil => intro x; simp [insertSorted]
  | cons t ts ih =>
    intro x
    rw [insertSorted]
    by_cases hlt : lexLt t.toList s.toList
    · rw [if_pos hlt]
      rw [List.mem_cons, ih x, List.mem_cons]
      tauto
    · rw [if_neg hlt]
      rw [List.mem_cons, List.mem_cons]

/-- Insertion is a permutation of consing. -/
theorem insertSorted_perm (s : String) :
    ∀ l, List.Perm (insertSorted s l) (s :: l) := by
  intro l
  induction l with
  | nil => exact List.Perm.refl _
  | cons t ts ih =>
    rw [insertSorted]
    by_cases hlt : lexLt t.toList s.toList
    · rw [if_pos hlt]
      exact (List.Perm.cons t ih).trans (List.Perm.swap s t ts)
    · rw [if_neg hlt]

/-- Insertion preserves sortedness. -/
theorem sorted_insertSorted (s : String) :
    ∀ l, List.Sorted strLe l → List.Sorted strLe (insertSorted s l) := by
  intro l
  induction l with
  | nil =>
    intro _
    exact List.sorted_singleton s
  | cons t ts ih =>
    intro hs
    rw [List.sorted_cons] at hs
    rw [insertSorted]
    by_cases hlt : lexLt t.toList s.toList
    · rw [if_pos hlt]
      rw [List.sorted_cons]
      constructor
      · intro b hb
        rcases (mem_insertSorted s ts b).mp hb with rfl | hb'
        · exact lexLt_asymm t.toList b.toList hlt
        · exact hs.1 b hb'
      · exact ih hs.2
    · rw [if_neg hlt]
      rw [List.sorted_cons]
      constructor
      · intro b hb
        rcases List.mem_cons.mp hb with rfl | hb'
        · exact Bool.eq_false_iff.mpr hlt
        · exact strLe_trans s t b (Bool.eq_false_iff.mpr hlt) (hs.1 b hb')
      · rw [List.sorted_cons]
        exact ⟨hs.1, hs.2⟩

/-- The sort used by the gatekeeper produces a sorted list. -/
theorem sorted_sortStrings (l : List String) : List.Sorted strLe (sortStrings l) := by
  induction l with
  | nil => exact List.sorted_nil
  | cons x xs ih => exact sorted_insertSorted x (sortStrings xs) ih

/-- The sort used by the gatekeeper is a permutation. -/
theorem sortStrings_perm (l : List String) : List.Perm (sortStrings l) l := by
  induction l with
  | nil => exact List.Perm.refl _
  | cons x xs ih =>
    exact (insertSorted_perm x (sortStrings xs)).trans (List.Perm.cons x ih)

/-- Claim C9. `get_input_images` returns the empty list for an absent
directory without raising; for a present directory it returns exactly
the names of the plain files whose suffix lower-cases into the
supported set (per `_is_valid_image`) — a permutation of that filtered
name list — in lexicographically sorted order. Non-matching entries are
merely skipped (they do not appear and cause no failure). -/
theorem get_input_images_sorted_filtered :
    getInputImages none = [] ∧
    ∀ entries : List DirEntry,
      List.Sorted strLe (getInputImages (some entries)) ∧
      List.Perm (getInputImages (some entries))
        ((entries.filter fun e => e.isFile && isValidImage e.name).map (·.name)) :=
  ⟨rfl, fun _ => ⟨sorted_sortStrings _, sortStrings_perm _⟩⟩

end PhotoPipeline
